import Mathlib

/-!
# Verification of the energy-ledger core (`blockchain_energy.py`)

Shallow embedding of the blockchain module of the repository:
`Block`, `SmartContract` and `EnergyBlockchain` with their operations
(`calculate_hash`, `mine_block`, `execute`, `create_genesis_block`,
`add_transaction`, `mine_pending_transactions`, `is_chain_valid`,
`get_balance`).

Modelling decisions, stated once:

* Python `float` fields are modelled as `ℚ`.  Every concrete value used by
  the spec's scenarios (10, 0.5, 5.0, 1.0, 0) is exactly representable in
  binary floating point and all arithmetic performed on them by the source
  is exact, so the models agree with the source on these inputs.
* `Block.calculate_hash` in the source is
  `sha256(json.dumps({index, timestamp, transactions, previous_hash, nonce},
  sort_keys=True))`.  `json.dumps` with sorted keys is an injective,
  deterministic serialization of these five fields; the only non-injective
  step is the SHA-256 compression.  For the ledger-level development the
  digest is modelled as the canonical serialization itself: an inductive
  `Hash` whose `digest` constructor carries the five hashed fields, so that
  digest equality coincides with field equality (the collision-freeness the
  spec's tamper-evidence contract assumes of SHA-256).  The sentinel
  previous-hash `"0"` of the genesis block is the separate constructor
  `Hash.sentinel` (it is a 1-character string, never equal to a 64-character
  hex digest).
* The proof-of-work loop of `mine_block` searches for a nonce whose digest
  meets the difficulty target; that target constrains the SHA-256 output,
  which the ledger layer abstracts.  At ledger level the effect of
  `mine_block` on the block is therefore modelled by the nonce value the
  search stops at (an arbitrary `Nat` parameter): the resulting block has
  that nonce and its hash recomputed from its current fields.  Quantifying
  over that nonce over-approximates the set of reachable ledger states, so
  universally quantified claims proved here cover every actual run.
  The string-level behaviour of the loop itself (target prefix, d = 0)
  is verified separately on `SBlock`, parametrically in the hash function.
* `datetime.now().isoformat()` timestamps are opaque `String` parameters
  supplied by the step that creates them.
* Python transaction dicts are the structure `Txn`; the keys that only some
  dicts carry (`contract_id`, `timestamp`) are `Option`-valued, mirroring
  `dict.get`.
-/

/-- A transaction dict as built by `SmartContract.execute` (all eight keys
present) or by the mining-reward literal in `mine_pending_transactions`
(no `contract_id`, no `timestamp`). -/
structure Txn where
  contract_id : Option String
  from_ : String
  to_ : String
  energy_kwh : ℚ
  price_per_kwh : ℚ
  total_cost : ℚ
  timestamp : Option String
  type : String
deriving DecidableEq, Repr

/-- A block digest.  `digest` carries the five fields serialized by
`Block.calculate_hash` (`index`, `timestamp`, `transactions`,
`previous_hash`, `nonce`); `sentinel` is the literal previous-hash `"0"`
given to the genesis block. -/
inductive Hash where
  | sentinel : Hash
  | digest : Nat → String → List Txn → Hash → Nat → Hash
deriving DecidableEq, Repr

/-- Source `Block`: index, timestamp, transaction batch, previous digest, nonce and
stored digest. -/
structure Block where
  index : Nat
  timestamp : String
  transactions : List Txn
  previous_hash : Hash
  nonce : Nat
  hash : Hash
deriving DecidableEq, Repr

/-- Source `Block.calculate_hash`: digest of the five hashed fields of the block
(the stored `hash` field itself is not part of the serialized payload). -/
def Block.calculate_hash (b : Block) : Hash :=
  Hash.digest b.index b.timestamp b.transactions b.previous_hash b.nonce

/-- Source `Block.__init__`: nonce starts at 0 and the stored hash is computed
immediately from the fields. -/
def Block.new (index : Nat) (timestamp : String) (transactions : List Txn)
    (previous_hash : Hash) : Block :=
  let b : Block :=
    { index := index, timestamp := timestamp, transactions := transactions,
      previous_hash := previous_hash, nonce := 0, hash := Hash.sentinel }
  { b with hash := b.calculate_hash }

/-- Source `Block.mine_block` at ledger level: the proof-of-work loop repeatedly
bumps the nonce and recomputes the stored hash until the difficulty target
holds; its effect on the block is determined by the final nonce `n` the
search stops at, with the stored hash recomputed from the current fields.
(When the loop body never runs the stored hash is not reassigned, but it
already equals `calculate_hash` from the constructor, so the equation below
also covers that case with `n` the unchanged nonce.) -/
def Block.mine_block (b : Block) (n : Nat) : Block :=
  let b' := { b with nonce := n }
  { b' with hash := b'.calculate_hash }

/-- Source `SmartContract.__init__` stores the trade parameters, status
`'pending'` and a construction timestamp. -/
structure SmartContract where
  contract_id : String
  producer : String
  consumer : String
  energy_kwh : ℚ
  price : ℚ
  status : String
  timestamp : String
deriving DecidableEq, Repr

/-- Source `SmartContract(contract_id, producer, consumer, energy_kwh, price)`:
status starts `'pending'`; `ts` is the `datetime.now().isoformat()` value. -/
def SmartContract.init (contract_id producer consumer : String)
    (energy_kwh price : ℚ) (ts : String) : SmartContract :=
  { contract_id := contract_id, producer := producer, consumer := consumer,
    energy_kwh := energy_kwh, price := price, status := "pending",
    timestamp := ts }

/-- Source `SmartContract.execute`: returns the transaction dict (with
`total_cost = energy_kwh * price` and the contract's own stored timestamp)
and sets the contract's status to `'completed'`.  It takes no ledger and
touches none. -/
def SmartContract.execute (c : SmartContract) : Txn × SmartContract :=
  ({ contract_id := some c.contract_id, from_ := c.producer, to_ := c.consumer,
     energy_kwh := c.energy_kwh, price_per_kwh := c.price,
     total_cost := c.energy_kwh * c.price, timestamp := some c.timestamp,
     type := "energy_trade" },
   { c with status := "completed" })

/-- Source `EnergyBlockchain` state: chain, pending pool, difficulty and the
mining-reward constant. -/
structure EnergyBlockchain where
  chain : List Block
  pending_transactions : List Txn
  difficulty : Nat
  mining_reward : ℚ
deriving DecidableEq, Repr

/-- Source `EnergyBlockchain.__init__` plus `create_genesis_block`: the genesis
block has index 0, empty transactions, previous hash `"0"`, and is mined at
the configured difficulty (`gnonce` is the nonce its proof-of-work search
stops at; `ts` its timestamp).  `mining_reward = 1.0`. -/
def EnergyBlockchain.init (difficulty : Nat) (ts : String) (gnonce : Nat) :
    EnergyBlockchain :=
  { chain := [(Block.new 0 ts [] Hash.sentinel).mine_block gnonce],
    pending_transactions := [], difficulty := difficulty, mining_reward := 1 }

/-- Source `EnergyBlockchain.get_latest_block`: `self.chain[-1]` (`none` on an
empty chain, where the source would raise; the chain of every reachable
state is non-empty). -/
def EnergyBlockchain.get_latest_block (bc : EnergyBlockchain) : Option Block :=
  bc.chain.getLast?

/-- Source `EnergyBlockchain.add_transaction`: append to the pending pool. -/
def EnergyBlockchain.add_transaction (bc : EnergyBlockchain) (t : Txn) :
    EnergyBlockchain :=
  { bc with pending_transactions := bc.pending_transactions ++ [t] }

/-- The mining-reward dict literal of `mine_pending_transactions`. -/
def rewardTxn (miner_address : String) (mining_reward : ℚ) : Txn :=
  { contract_id := none, from_ := "network", to_ := miner_address,
    energy_kwh := 0, price_per_kwh := 0, total_cost := mining_reward,
    timestamp := none, type := "mining_reward" }

/-- Source `EnergyBlockchain.mine_pending_transactions`: with an empty pending pool
it prints and returns, leaving the state unchanged.  Otherwise it builds a
block at index `len(chain)` over a snapshot of the pool, linked to the
latest block's hash, mines it (`n` the nonce the search stops at, `ts` its
timestamp), appends it, and resets the pool to the single reward dict.
The pair's first component is the new state; the second models the Python
return value, which is `None` on every path: the only `return` statement is
the bare early return for the empty pool, and the success path falls off
the end of the function without returning the block.  The `none` chain
branch is unreachable from any constructed ledger (the source would raise
there). -/
def EnergyBlockchain.mine_pending_transactions (bc : EnergyBlockchain)
    (miner_address : String) (ts : String) (n : Nat) :
    EnergyBlockchain × Option Block :=
  if bc.pending_transactions = [] then (bc, none)
  else
    match bc.chain.getLast? with
    | none => (bc, none)
    | some latest =>
      let new_block :=
        (Block.new bc.chain.length ts bc.pending_transactions latest.hash).mine_block n
      ({ bc with chain := bc.chain ++ [new_block],
                 pending_transactions := [rewardTxn miner_address bc.mining_reward] },
       none)

/-- The body of `is_chain_valid`'s loop from a previous block: each later
block must store the digest of its own current fields and link to the
previous block's stored hash. -/
def chainValidFrom (prev : Block) : List Block → Bool
  | [] => true
  | cur :: rest =>
    if cur.hash = cur.calculate_hash ∧ cur.previous_hash = prev.hash then
      chainValidFrom cur rest
    else false

/-- Source `EnergyBlockchain.is_chain_valid`: runs the pairwise checks for
`i = 1 .. len(chain) - 1`; the genesis block itself is never re-checked. -/
def EnergyBlockchain.is_chain_valid (bc : EnergyBlockchain) : Bool :=
  match bc.chain with
  | [] => true
  | b :: rest => chainValidFrom b rest

/-- The effect of one transaction dict on a running balance in
`get_balance`: `+total_cost` when `to` matches, then `-total_cost` when
`from` matches (both `if`s run). -/
def txnBalance (address : String) (acc : ℚ) (t : Txn) : ℚ :=
  let acc1 := if t.to_ = address then acc + t.total_cost else acc
  if t.from_ = address then acc1 - t.total_cost else acc1

/-- Source `EnergyBlockchain.get_balance`: replay the whole chain from 0. -/
def EnergyBlockchain.get_balance (bc : EnergyBlockchain) (address : String) : ℚ :=
  bc.chain.foldl (fun acc b => b.transactions.foldl (txnBalance address) acc) 0

/-- Ledger states reachable by constructing a ledger and then performing any
sequence of `add_transaction` (submit) and `mine_pending_transactions`
(seal) operations.  Timestamps and the nonces found by each proof-of-work
search are arbitrary. -/
inductive Reachable : EnergyBlockchain → Prop where
  | init (d : Nat) (ts : String) (gnonce : Nat) :
      Reachable (EnergyBlockchain.init d ts gnonce)
  | submit {bc : EnergyBlockchain} (t : Txn) :
      Reachable bc → Reachable (bc.add_transaction t)
  | mine {bc : EnergyBlockchain} (miner ts : String) (n : Nat) :
      Reachable bc → Reachable (bc.mine_pending_transactions miner ts n).1

/-- Ledger states reachable when, as in the source program, every submitted
transaction is one produced by `SmartContract.execute` (the reward dict is
still synthesized by `seal` itself). -/
inductive ReachableC : EnergyBlockchain → Prop where
  | init (d : Nat) (ts : String) (gnonce : Nat) :
      ReachableC (EnergyBlockchain.init d ts gnonce)
  | submit {bc : EnergyBlockchain} (c : SmartContract) :
      ReachableC bc → ReachableC (bc.add_transaction c.execute.1)
  | mine {bc : EnergyBlockchain} (miner ts : String) (n : Nat) :
      ReachableC bc → ReachableC (bc.mine_pending_transactions miner ts n).1

/-!
## String-level model of the proof-of-work loop

`SBlock` keeps the digest as a hex string, as in the source, and is
parametric in the hash function `H` standing for
`sha256(json.dumps(..., sort_keys=True))`: every theorem below is proved
for all `H`, hence in particular for the real one.  The loop is given fuel
so it is total in Lean; the source loop is unbounded and blocks until
success, so its returning is modelled by the fueled loop returning `some`.
-/

/-- A block with a string digest, for the proof-of-work layer. -/
structure SBlock where
  index : Nat
  timestamp : String
  transactions : List Txn
  previous_hash : String
  nonce : Nat
  hash : String
deriving DecidableEq, Repr

/-- Source `Block.calculate_hash` over an abstract hash function `H` of the five
serialized fields. -/
def SBlock.calculate_hash (H : Nat → String → List Txn → String → Nat → String)
    (b : SBlock) : String :=
  H b.index b.timestamp b.transactions b.previous_hash b.nonce

/-- Source `Block.__init__` at string level: nonce 0, hash computed immediately. -/
def SBlock.new (H : Nat → String → List Txn → String → Nat → String)
    (index : Nat) (timestamp : String) (transactions : List Txn)
    (previous_hash : String) : SBlock :=
  let b : SBlock :=
    { index := index, timestamp := timestamp, transactions := transactions,
      previous_hash := previous_hash, nonce := 0, hash := "" }
  { b with hash := b.calculate_hash H }

/-- Source `target = '0' * difficulty`. -/
def powTarget (difficulty : Nat) : String :=
  String.mk (List.replicate difficulty '0')

/-- One iteration of the `while` body: `self.nonce += 1` then
`self.hash = self.calculate_hash()`. -/
def SBlock.mineStep (H : Nat → String → List Txn → String → Nat → String)
    (b : SBlock) : SBlock :=
  let b' := { b with nonce := b.nonce + 1 }
  { b' with hash := b'.calculate_hash H }

/-- Source `Block.mine_block` at string level: loop while
`self.hash[:difficulty] != target`, with explicit fuel (`none` = fuel ran
out before the target was met; the source would still be looping). -/
def SBlock.mine_block (H : Nat → String → List Txn → String → Nat → String)
    (difficulty : Nat) : Nat → SBlock → Option SBlock
  | fuel, b =>
    if (b.hash.take difficulty) = powTarget difficulty then some b
    else
      match fuel with
      | 0 => none
      | fuel + 1 => SBlock.mine_block H difficulty fuel (b.mineStep H)

/-!
## Invariant machinery for reachable ledger states
-/

/-- The two checks `is_chain_valid` runs for one adjacent pair. -/
def PairOk (prev cur : Block) : Prop :=
  cur.hash = cur.calculate_hash ∧ cur.previous_hash = prev.hash

/-- All pairwise checks along a chain hanging off `prev`. -/
def ChainOk : Block → List Block → Prop
  | _, [] => True
  | prev, cur :: rest => PairOk prev cur ∧ ChainOk cur rest

/-- The structural invariant of a reachable ledger: non-empty chain whose
head is the genesis block (index 0, sentinel previous hash, stored hash
equal to its own digest) and whose later blocks all pass the pairwise
checks. -/
def LedgerInv (bc : EnergyBlockchain) : Prop :=
  match bc.chain with
  | [] => False
  | b0 :: rest =>
    b0.index = 0 ∧ b0.previous_hash = Hash.sentinel ∧
    b0.hash = b0.calculate_hash ∧ ChainOk b0 rest

theorem mine_block_index (b : Block) (n : Nat) : (b.mine_block n).index = b.index := rfl

theorem mine_block_prev (b : Block) (n : Nat) :
    (b.mine_block n).previous_hash = b.previous_hash := rfl

theorem mine_block_txns (b : Block) (n : Nat) :
    (b.mine_block n).transactions = b.transactions := rfl

theorem mine_block_hash (b : Block) (n : Nat) :
    (b.mine_block n).hash = (b.mine_block n).calculate_hash := rfl

theorem chainValidFrom_iff (prev : Block) (l : List Block) :
    chainValidFrom prev l = true ↔ ChainOk prev l := by
  induction l generalizing prev with
  | nil => simp [chainValidFrom, ChainOk]
  | cons cur rest ih =>
    simp only [chainValidFrom, ChainOk]
    by_cases h : PairOk prev cur
    · simp [PairOk] at h
      simp [h, ih, PairOk]
    · simp [PairOk] at h
      by_cases h1 : cur.hash = cur.calculate_hash
      · simp [h1] at h ⊢
        simp [h, PairOk, h1]
      · simp [h1, PairOk]

/-- Source `ChainOk` only looks at the previous block through its stored hash. -/
theorem ChainOk_congr_hash {a a' : Block} (h : a.hash = a'.hash) (l : List Block) :
    ChainOk a l → ChainOk a' l := by
  cases l with
  | nil => intro; trivial
  | cons cur rest =>
    intro ⟨⟨h1, h2⟩, h3⟩
    exact ⟨⟨h1, h ▸ h2⟩, h3⟩

/-- Appending a block that passes the checks against the current last
block preserves `ChainOk`. -/
theorem ChainOk_append {prev : Block} {l : List Block} (b : Block)
    (h : ChainOk prev l)
    (hb : PairOk ((prev :: l).getLast (by simp)) b) :
    ChainOk prev (l ++ [b]) := by
  induction l generalizing prev with
  | nil => exact ⟨hb, trivial⟩
  | cons cur rest ih =>
    obtain ⟨h1, h2⟩ := h
    refine ⟨h1, ih h2 ?_⟩
    simpa [List.getLast] using hb

/-- Indexed reading of `ChainOk`: every adjacent pair in `prev :: l`
passes the checks. -/
theorem ChainOk_get {prev : Block} {l : List Block} (h : ChainOk prev l) :
    ∀ i (hi : i + 1 < (prev :: l).length),
      PairOk ((prev :: l).get ⟨i, Nat.lt_of_succ_lt hi⟩)
        ((prev :: l).get ⟨i + 1, hi⟩) := by
  induction l generalizing prev with
  | nil => intro i hi; simp at hi
  | cons cur rest ih =>
    intro i hi
    obtain ⟨h1, h2⟩ := h
    cases i with
    | zero => exact h1
    | succ j =>
      have := ih h2 j (by simpa using hi)
      simpa using this

theorem Block_new_fields (i : Nat) (ts : String) (txns : List Txn) (ph : Hash) :
    (Block.new i ts txns ph).index = i ∧ (Block.new i ts txns ph).timestamp = ts ∧
    (Block.new i ts txns ph).transactions = txns ∧
    (Block.new i ts txns ph).previous_hash = ph ∧
    (Block.new i ts txns ph).nonce = 0 ∧
    (Block.new i ts txns ph).hash = (Block.new i ts txns ph).calculate_hash :=
  ⟨rfl, rfl, rfl, rfl, rfl, rfl⟩

theorem LedgerInv_init (d : Nat) (ts : String) (gnonce : Nat) :
    LedgerInv (EnergyBlockchain.init d ts gnonce) := by
  refine ⟨rfl, rfl, rfl, trivial⟩

theorem LedgerInv_submit {bc : EnergyBlockchain} (t : Txn) (h : LedgerInv bc) :
    LedgerInv (bc.add_transaction t) := h

theorem LedgerInv_seal {bc : EnergyBlockchain} (miner ts : String) (n : Nat)
    (h : LedgerInv bc) :
    LedgerInv (bc.mine_pending_transactions miner ts n).1 := by
  unfold EnergyBlockchain.mine_pending_transactions
  by_cases hp : bc.pending_transactions = []
  · simpa [hp] using h
  · unfold LedgerInv at h
    match hc : bc.chain with
    | [] => simp [hc] at h
    | b0 :: rest =>
      rw [hc] at h
      obtain ⟨h0, h1, h2, h3⟩ := h
      have hne : b0 :: rest ≠ ([] : List Block) := by simp
      have hlast : (b0 :: rest).getLast? = some ((b0 :: rest).getLast hne) :=
        List.getLast?_eq_getLast _ hne
      simp only [hp, if_neg hp, hc, hlast]
      unfold LedgerInv
      simp only [List.cons_append]
      refine ⟨h0, h1, h2, ?_⟩
      refine ChainOk_append _ h3 ?_
      exact ⟨mine_block_hash _ _, mine_block_prev _ _⟩

theorem Reachable_inv {bc : EnergyBlockchain} (h : Reachable bc) : LedgerInv bc := by
  induction h with
  | init d ts gnonce => exact LedgerInv_init d ts gnonce
  | submit t _ ih => exact LedgerInv_submit t ih
  | mine miner ts n _ ih => exact LedgerInv_seal miner ts n ih

theorem ReachableC_Reachable {bc : EnergyBlockchain} (h : ReachableC bc) :
    Reachable bc := by
  induction h with
  | init d ts gnonce => exact Reachable.init d ts gnonce
  | submit c _ ih => exact Reachable.submit _ ih
  | mine miner ts n _ ih => exact Reachable.mine miner ts n ih

theorem is_chain_valid_of_inv {bc : EnergyBlockchain} (h : LedgerInv bc) :
    bc.is_chain_valid = true := by
  unfold LedgerInv at h
  unfold EnergyBlockchain.is_chain_valid
  match hc : bc.chain with
  | [] => rfl
  | b0 :: rest =>
    rw [hc] at h
    exact (chainValidFrom_iff b0 rest).mpr h.2.2.2

/-!
## Concrete example states (used by witnesses)

The spec's scenario: a ledger at difficulty 1, one executed contract
`A → B, 10 kWh at 0.5`, then one seal by `"M"`.  Timestamps are fixed
strings and both proof-of-work searches stop at nonce 0 (the ledger-level
model leaves the stopping nonce free, so any value may be used here).
-/

/-- The scenario contract `A → B`, 10 kWh at price 0.5. -/
def scA : SmartContract := SmartContract.init "SC1" "A" "B" 10 (1/2) "t0"

/-- Freshly constructed scenario ledger, difficulty 1. -/
def bcInit : EnergyBlockchain := EnergyBlockchain.init 1 "g" 0

/-- Scenario ledger after submitting the executed contract's record. -/
def bcSub : EnergyBlockchain := bcInit.add_transaction scA.execute.1

/-- Scenario ledger after sealing by miner `"M"`. -/
def bcSealed : EnergyBlockchain := (bcSub.mine_pending_transactions "M" "t1" 0).1

theorem bcSealed_reachable : Reachable bcSealed :=
  Reachable.mine "M" "t1" 0 (Reachable.submit scA.execute.1 (Reachable.init 1 "g" 0))

theorem bcSealed_reachableC : ReachableC bcSealed :=
  ReachableC.mine "M" "t1" 0 (ReachableC.submit scA (ReachableC.init 1 "g" 0))

theorem bcSub_reachable : Reachable bcSub :=
  Reachable.submit scA.execute.1 (Reachable.init 1 "g" 0)

/-- C2: in every reachable ledger state the chain is non-empty, its head
has index 0 and previous hash `"0"`, every later block links to its
predecessor's stored hash and stores the digest of its own current fields,
and `is_chain_valid` returns true. -/
theorem reachable_chain_invariant (bc : EnergyBlockchain) (h : Reachable bc) :
    bc.chain ≠ [] ∧
    (∀ (h0 : 0 < bc.chain.length),
       (bc.chain.get ⟨0, h0⟩).index = 0 ∧
       (bc.chain.get ⟨0, h0⟩).previous_hash = Hash.sentinel) ∧
    (∀ i (hi : i + 1 < bc.chain.length),
       (bc.chain.get ⟨i + 1, hi⟩).previous_hash =
         (bc.chain.get ⟨i, Nat.lt_of_succ_lt hi⟩).hash ∧
       (bc.chain.get ⟨i + 1, hi⟩).hash =
         (bc.chain.get ⟨i + 1, hi⟩).calculate_hash) ∧
    bc.is_chain_valid = true := by
  have hinv := Reachable_inv h
  have hvalid := is_chain_valid_of_inv hinv
  unfold LedgerInv at hinv
  match hc : bc.chain with
  | [] => rw [hc] at hinv; exact absurd hinv (by simp)
  | b0 :: rest =>
    rw [hc] at hinv
    obtain ⟨h0, h1, _, h3⟩ := hinv
    refine ⟨by simp, ?_, ?_, hvalid⟩
    · intro hl; exact ⟨h0, h1⟩
    · intro i hi
      have := ChainOk_get h3 i hi
      exact ⟨this.2, this.1⟩

/-- Witness for C2 at the sealed scenario state. -/
theorem reachable_chain_invariant_witness :
    bcSealed.chain ≠ [] ∧
    (∀ (h0 : 0 < bcSealed.chain.length),
       (bcSealed.chain.get ⟨0, h0⟩).index = 0 ∧
       (bcSealed.chain.get ⟨0, h0⟩).previous_hash = Hash.sentinel) ∧
    (∀ i (hi : i + 1 < bcSealed.chain.length),
       (bcSealed.chain.get ⟨i + 1, hi⟩).previous_hash =
         (bcSealed.chain.get ⟨i, Nat.lt_of_succ_lt hi⟩).hash ∧
       (bcSealed.chain.get ⟨i + 1, hi⟩).hash =
         (bcSealed.chain.get ⟨i + 1, hi⟩).calculate_hash) ∧
    bcSealed.is_chain_valid = true :=
  reachable_chain_invariant bcSealed bcSealed_reachable

/-- C7: sealing with an empty pending pool is a no-op for every ledger
state: no error, same state, `None` returned. -/
theorem seal_empty_noop (bc : EnergyBlockchain) (miner ts : String) (n : Nat)
    (hp : bc.pending_transactions = []) :
    (bc.mine_pending_transactions miner ts n).1 = bc ∧
    (bc.mine_pending_transactions miner ts n).2 = none := by
  unfold EnergyBlockchain.mine_pending_transactions
  simp [hp]

/-- Witness for C7 at the freshly constructed scenario ledger. -/
theorem seal_empty_noop_witness :
    (bcInit.mine_pending_transactions "X" "t9" 3).1 = bcInit ∧
    (bcInit.mine_pending_transactions "X" "t9" 3).2 = none :=
  seal_empty_noop bcInit "X" "t9" 3 rfl

/-- Counterexample for C6 as stated: at the scenario state with one pending
transaction, sealing does append a new last block, yet the function's
return value is `None` (the source's success path has no `return`
statement), not that block. -/
theorem seal_return_value_counterexample :
    bcSub.pending_transactions ≠ [] ∧
    (bcSub.mine_pending_transactions "M" "t1" 0).2 = none ∧
    (bcSub.mine_pending_transactions "M" "t1" 0).1.chain.getLast? ≠ none := by
  refine ⟨by simp [bcSub, EnergyBlockchain.add_transaction], rfl, by decide⟩

/-- C6 amended: sealing a state with a non-empty pending pool appends the
newly built block, which becomes the last element of the chain, but the
function returns `None` rather than that block: its success path falls off
the end of the function without a `return` statement. -/
theorem seal_appends_block_returns_none (bc : EnergyBlockchain)
    (h : Reachable bc) (miner ts : String) (n : Nat)
    (hp : bc.pending_transactions ≠ []) :
    (bc.mine_pending_transactions miner ts n).2 = none ∧
    ∃ b : Block,
      (bc.mine_pending_transactions miner ts n).1.chain = bc.chain ++ [b] ∧
      (bc.mine_pending_transactions miner ts n).1.chain.getLast? = some b := by
  have hinv := Reachable_inv h
  unfold LedgerInv at hinv
  match hc : bc.chain with
  | [] => rw [hc] at hinv; exact absurd hinv (by simp)
  | b0 :: rest =>
    have hne : (b0 :: rest : List Block) ≠ [] := by simp
    have hlast : bc.chain.getLast? = some ((b0 :: rest).getLast hne) := by
      rw [hc]; exact List.getLast?_eq_getLast _ hne
    refine ⟨?_, (Block.new bc.chain.length ts bc.pending_transactions
        ((b0 :: rest).getLast hne).hash).mine_block n, ?_, ?_⟩
    · simp only [EnergyBlockchain.mine_pending_transactions, if_neg hp, hlast]
    · simp only [EnergyBlockchain.mine_pending_transactions, if_neg hp, hlast]
      rw [hc]
    · simp only [EnergyBlockchain.mine_pending_transactions, if_neg hp, hlast]
      exact List.getLast?_concat _

/-- Witness for C6's amended claim at the scenario state with one pending
transaction. -/
theorem seal_appends_block_returns_none_witness :
    (bcSub.mine_pending_transactions "M" "t1" 0).2 = none ∧
    ∃ b : Block,
      (bcSub.mine_pending_transactions "M" "t1" 0).1.chain = bcSub.chain ++ [b] ∧
      (bcSub.mine_pending_transactions "M" "t1" 0).1.chain.getLast? = some b :=
  seal_appends_block_returns_none bcSub bcSub_reachable "M" "t1" 0 (by simp [bcSub,
    EnergyBlockchain.add_transaction])

/-- C9: `is_chain_valid` never re-checks the genesis digest: replacing
`chain[0]` by any block with the same stored hash (all other fields free)
leaves validation succeeding on a reachable state. -/
theorem genesis_not_rechecked (bc : EnergyBlockchain) (h : Reachable bc)
    (b0' : Block) (hl : 0 < bc.chain.length)
    (hhash : b0'.hash = (bc.chain.get ⟨0, hl⟩).hash) :
    ({ bc with chain := bc.chain.set 0 b0' } : EnergyBlockchain).is_chain_valid
      = true := by
  have hinv := Reachable_inv h
  unfold LedgerInv at hinv
  match hc : bc.chain with
  | [] => rw [hc] at hinv; exact absurd hinv (by simp)
  | b0 :: rest =>
    rw [hc] at hinv
    obtain ⟨_, _, _, h3⟩ := hinv
    have hget : bc.chain.get ⟨0, hl⟩ = b0 := by
      have := List.get_of_eq hc ⟨0, hl⟩
      simpa using this
    rw [hget] at hhash
    show chainValidFrom b0' rest = true
    exact (chainValidFrom_iff b0' rest).mpr (ChainOk_congr_hash hhash.symm rest h3)

/-- C1: tamper detection.  In any reachable state, changing any of the five
hashed fields of a non-genesis block while keeping its stored hash makes
`is_chain_valid` return false. -/
theorem tamper_detection (bc : EnergyBlockchain) (h : Reachable bc)
    (n : Nat) (hn : 0 < n) (hlen : n < bc.chain.length) (b' : Block)
    (hhash : b'.hash = (bc.chain.get ⟨n, hlen⟩).hash)
    (hdiff : b'.index ≠ (bc.chain.get ⟨n, hlen⟩).index ∨
             b'.timestamp ≠ (bc.chain.get ⟨n, hlen⟩).timestamp ∨
             b'.transactions ≠ (bc.chain.get ⟨n, hlen⟩).transactions ∨
             b'.previous_hash ≠ (bc.chain.get ⟨n, hlen⟩).previous_hash ∨
             b'.nonce ≠ (bc.chain.get ⟨n, hlen⟩).nonce) :
    ({ bc with chain := bc.chain.set n b' } : EnergyBlockchain).is_chain_valid
      = false := by
  have hinv := Reachable_inv h
  unfold LedgerInv at hinv
  match hc : bc.chain with
  | [] => rw [hc] at hinv; exact absurd hinv (by simp)
  | b0 :: rest =>
    rw [hc] at hinv
    obtain ⟨_, _, _, h3⟩ := hinv
    obtain ⟨m, rfl⟩ : ∃ m, n = m + 1 := ⟨n - 1, (Nat.succ_pred_eq_of_pos hn).symm⟩
    have hm : m + 1 < (b0 :: rest).length := by rw [hc] at hlen; exact hlen
    have hget : bc.chain.get ⟨m + 1, hlen⟩ = (b0 :: rest).get ⟨m + 1, hm⟩ := by
      have := List.get_of_eq hc ⟨m + 1, hlen⟩
      simpa using this
    -- the stored hash of the original block n is its own digest
    have hOk := (ChainOk_get h3 m hm).1
    rw [hget] at hhash hdiff
    -- suppose the tampered chain still validates
    by_contra hv
    rw [Bool.not_eq_false] at hv
    have hvalid : chainValidFrom b0 (rest.set m b') = true := hv
    have hOk' := (chainValidFrom_iff b0 (rest.set m b')).mp hvalid
    have hmset : m + 1 < (b0 :: rest.set m b').length := by
      simpa using hm
    have hpair := (ChainOk_get hOk' m hmset).1
    have hbget : (b0 :: rest.set m b').get ⟨m + 1, hmset⟩ = b' := by
      have hmr : m < rest.length := by simpa using hm
      simp [List.get_cons_succ]
    rw [hbget] at hpair
    -- b'.hash = digest(b' fields) but also = digest(original fields)
    rw [hhash, hOk] at hpair
    unfold Block.calculate_hash at hpair
    injection hpair with e1 e2 e3 e4 e5
    rcases hdiff with hd | hd | hd | hd | hd
    · exact hd e1.symm
    · exact hd e2.symm
    · exact hd e3.symm
    · exact hd e4.symm
    · exact hd e5.symm

/-- The spec's scenario state, parametric in the timestamps and in the
nonces the two proof-of-work searches stop at: a difficulty-1 ledger, one
executed contract `A → B, 10 kWh at 0.5`, then a seal by `"M"`. -/
def scenarioState (ts0 cts ts1 : String) (g m : Nat) : EnergyBlockchain :=
  (((EnergyBlockchain.init 1 ts0 g).add_transaction
      ((SmartContract.init "SC1" "A" "B" 10 (1/2) cts).execute.1)).mine_pending_transactions
    "M" ts1 m).1

/-- C3: the submit-then-seal scenario at difficulty 1: the submitted record
costs 5.0, the chain reaches length 2, the pool holds exactly the one
mining-reward record addressed to `"M"`, `A` owes 5.0, `B` is owed 5.0,
and the chain validates. -/
theorem scenario_difficulty_one (ts0 cts ts1 : String) (g m : Nat) :
    ((SmartContract.init "SC1" "A" "B" 10 (1/2) cts).execute.1).total_cost = 5 ∧
    (scenarioState ts0 cts ts1 g m).chain.length = 2 ∧
    (scenarioState ts0 cts ts1 g m).pending_transactions = [rewardTxn "M" 1] ∧
    (rewardTxn "M" 1).to_ = "M" ∧ (rewardTxn "M" 1).type = "mining_reward" ∧
    (scenarioState ts0 cts ts1 g m).get_balance "A" = -5 ∧
    (scenarioState ts0 cts ts1 g m).get_balance "B" = 5 ∧
    (scenarioState ts0 cts ts1 g m).is_chain_valid = true := by
  refine ⟨by norm_num [SmartContract.init, SmartContract.execute], ?_, ?_, rfl, rfl, ?_, ?_, ?_⟩
  · simp [scenarioState, EnergyBlockchain.init, EnergyBlockchain.add_transaction,
      EnergyBlockchain.mine_pending_transactions]
  · simp [scenarioState, EnergyBlockchain.init, EnergyBlockchain.add_transaction,
      EnergyBlockchain.mine_pending_transactions]
  · norm_num [scenarioState, EnergyBlockchain.init, EnergyBlockchain.add_transaction,
      EnergyBlockchain.mine_pending_transactions, EnergyBlockchain.get_balance,
      txnBalance, SmartContract.init, SmartContract.execute, Block.new,
      Block.mine_block]
    decide
  · norm_num [scenarioState, EnergyBlockchain.init, EnergyBlockchain.add_transaction,
      EnergyBlockchain.mine_pending_transactions, EnergyBlockchain.get_balance,
      txnBalance, SmartContract.init, SmartContract.execute, Block.new,
      Block.mine_block]
    decide
  · simp [scenarioState, EnergyBlockchain.init, EnergyBlockchain.add_transaction,
      EnergyBlockchain.mine_pending_transactions, EnergyBlockchain.is_chain_valid,
      chainValidFrom, Block.new, Block.mine_block, Block.calculate_hash]

/-- C10: executing a contract twice returns two records that agree on
contract id, parties, quantities, price, total cost and type; each call
has no ledger effect (`execute` takes no ledger at all — its type is
`SmartContract → Txn × SmartContract`); after either call the contract's
status is `'completed'`. -/
theorem execute_twice_same_record (c : SmartContract) :
    c.execute.2.execute.1.contract_id = c.execute.1.contract_id ∧
    c.execute.2.execute.1.from_ = c.execute.1.from_ ∧
    c.execute.2.execute.1.to_ = c.execute.1.to_ ∧
    c.execute.2.execute.1.energy_kwh = c.execute.1.energy_kwh ∧
    c.execute.2.execute.1.price_per_kwh = c.execute.1.price_per_kwh ∧
    c.execute.2.execute.1.total_cost = c.execute.1.total_cost ∧
    c.execute.2.execute.1.type = c.execute.1.type ∧
    c.execute.2.status = "completed" ∧
    c.execute.2.execute.2.status = "completed" :=
  ⟨rfl, rfl, rfl, rfl, rfl, rfl, rfl, rfl, rfl⟩

/-- Block 1 of the sealed scenario state with its nonce changed (stored
hash kept): a concrete tampering. -/
def tamperedBlock : Block :=
  { bcSealed.chain.get ⟨1, by decide⟩ with nonce := 5 }

/-- Witness for C1: tampering with block 1's nonce in the sealed scenario
state makes validation fail. -/
theorem tamper_detection_witness :
    ({ bcSealed with chain := bcSealed.chain.set 1 tamperedBlock } :
      EnergyBlockchain).is_chain_valid = false :=
  tamper_detection bcSealed bcSealed_reachable 1 (by decide) (by decide)
    tamperedBlock rfl (Or.inr (Or.inr (Or.inr (Or.inr (by decide)))))

/-- The genesis block of the sealed scenario state with its timestamp
changed (stored hash kept). -/
def genesisTampered : Block :=
  { bcSealed.chain.get ⟨0, by decide⟩ with timestamp := "x" }

/-- Witness for C9: changing the genesis timestamp (hash kept) in the
sealed scenario state leaves validation succeeding. -/
theorem genesis_not_rechecked_witness :
    ({ bcSealed with chain := bcSealed.chain.set 0 genesisTampered } :
      EnergyBlockchain).is_chain_valid = true :=
  genesis_not_rechecked bcSealed bcSealed_reachable genesisTampered (by decide) rfl

/-- The signed contribution of one transaction dict to one address's
balance: `+total_cost` on the `to` match, `-total_cost` on the `from`
match. -/
def contrib (address : String) (t : Txn) : ℚ :=
  (if t.to_ = address then t.total_cost else 0) -
  (if t.from_ = address then t.total_cost else 0)

theorem txnBalance_eq (address : String) (acc : ℚ) (t : Txn) :
    txnBalance address acc t = acc + contrib address t := by
  unfold txnBalance contrib
  split <;> split <;> ring

theorem foldl_txnBalance (address : String) (l : List Txn) (acc : ℚ) :
    l.foldl (txnBalance address) acc = acc + (l.map (contrib address)).sum := by
  induction l generalizing acc with
  | nil => simp
  | cons t l ih =>
    rw [List.foldl_cons, txnBalance_eq, ih]
    simp [add_assoc]

theorem chain_foldl_balance (address : String) (l : List Block) (acc : ℚ) :
    l.foldl (fun acc b => b.transactions.foldl (txnBalance address) acc) acc
      = acc + ((l.flatMap Block.transactions).map (contrib address)).sum := by
  induction l generalizing acc with
  | nil => simp
  | cons b l ih =>
    rw [List.foldl_cons, ih, foldl_txnBalance]
    simp [List.flatMap_cons, add_assoc]

theorem get_balance_eq (bc : EnergyBlockchain) (address : String) :
    bc.get_balance address =
      ((bc.chain.flatMap Block.transactions).map (contrib address)).sum := by
  unfold EnergyBlockchain.get_balance
  rw [chain_foldl_balance]
  simp

theorem sum_contrib_swap (S : Finset String) (l : List Txn) :
    (S.sum fun a => (l.map (contrib a)).sum)
      = (l.map fun t => S.sum fun a => contrib a t).sum := by
  induction l with
  | nil => simp
  | cons t l ih =>
    simp only [List.map_cons, List.sum_cons, Finset.sum_add_distrib, ih]

theorem sum_contrib_zero (S : Finset String) (t : Txn)
    (hf : t.from_ ∈ S) (ht : t.to_ ∈ S) :
    (S.sum fun a => contrib a t) = 0 := by
  unfold contrib
  rw [Finset.sum_sub_distrib, Finset.sum_ite_eq S t.to_ (fun _ => t.total_cost),
    Finset.sum_ite_eq S t.from_ (fun _ => t.total_cost)]
  simp [hf, ht]

/-- C8: balance conservation.  In any reachable state whose chain contains
no `"network"`-funded transaction, the balances over any finite address set
covering every `from`/`to` of the chained transactions sum to zero. -/
theorem balance_conservation (bc : EnergyBlockchain) (h : Reachable bc)
    (hnet : ∀ b ∈ bc.chain, ∀ t ∈ b.transactions, t.from_ ≠ "network")
    (S : Finset String)
    (hS : ∀ b ∈ bc.chain, ∀ t ∈ b.transactions, t.from_ ∈ S ∧ t.to_ ∈ S) :
    (S.sum fun a => bc.get_balance a) = 0 := by
  simp only [get_balance_eq]
  rw [sum_contrib_swap]
  apply List.sum_eq_zero
  intro x hx
  rw [List.mem_map] at hx
  obtain ⟨t, htl, rfl⟩ := hx
  rw [List.mem_flatMap] at htl
  obtain ⟨b, hb, htb⟩ := htl
  exact sum_contrib_zero S t (hS b hb t htb).1 (hS b hb t htb).2

/-- Witness for C8 at the sealed scenario state over the address set
`{A, B}`. -/
theorem balance_conservation_witness :
    (({"A", "B"} : Finset String).sum fun a => bcSealed.get_balance a) = 0 :=
  balance_conservation bcSealed bcSealed_reachable (by decide)
    ({"A", "B"} : Finset String) (by decide)

/-- All transaction records present in a ledger state: the pending pool
plus every block's batch. -/
def ledgerTxns (bc : EnergyBlockchain) : List Txn :=
  bc.pending_transactions ++ bc.chain.flatMap Block.transactions

/-- Counterexample for C4 as stated: in the sealed scenario state
(reachable with every submission produced by `SmartContract.execute`), the
mining-reward record synthesized by `seal` is present and has
`total_cost = 1` while `energy_kwh * price_per_kwh = 0 * 0 = 0`. -/
theorem total_cost_claim_counterexample :
    ReachableC bcSealed ∧
    rewardTxn "M" 1 ∈ ledgerTxns bcSealed ∧
    (rewardTxn "M" 1).total_cost ≠
      (rewardTxn "M" 1).energy_kwh * (rewardTxn "M" 1).price_per_kwh := by
  refine ⟨bcSealed_reachableC, ?_, ?_⟩
  · have hpend : bcSealed.pending_transactions = [rewardTxn "M" 1] := rfl
    simp [ledgerTxns, hpend]
  · norm_num [rewardTxn]

/-- C4 amended: in every state reachable with all submissions produced by
`SmartContract.execute`, every present record other than a mining-reward
record has `total_cost = energy_kwh * price_per_kwh` (the reward record
instead carries `total_cost = mining_reward` with zero quantity and
price). -/
theorem total_cost_of_trade (bc : EnergyBlockchain) (h : ReachableC bc) :
    ∀ t ∈ ledgerTxns bc, t.type ≠ "mining_reward" →
      t.total_cost = t.energy_kwh * t.price_per_kwh := by
  induction h with
  | init d ts gnonce =>
    intro t ht hk
    simp [ledgerTxns, EnergyBlockchain.init, Block.new, Block.mine_block] at ht
  | @submit bc1 c hr ih =>
    intro t ht hk
    simp only [ledgerTxns, EnergyBlockchain.add_transaction, List.mem_append,
      List.mem_singleton] at ht
    rcases ht with (htp | hteq) | htc
    · exact ih t (by simp [ledgerTxns, List.mem_append, htp]) hk
    · subst hteq; rfl
    · exact ih t (by simp [ledgerTxns, List.mem_append, htc]) hk
  | @mine bc1 miner ts n hr ih =>
    intro t ht hk
    by_cases hp : bc1.pending_transactions = []
    · rw [show (bc1.mine_pending_transactions miner ts n).1 = bc1 from by
        unfold EnergyBlockchain.mine_pending_transactions; simp [hp]] at ht
      exact ih t ht hk
    · rcases hl : bc1.chain.getLast? with _ | latest
      · rw [show (bc1.mine_pending_transactions miner ts n).1 = bc1 from by
          unfold EnergyBlockchain.mine_pending_transactions; simp [hp, hl]] at ht
        exact ih t ht hk
      · have hstate : (bc1.mine_pending_transactions miner ts n).1 =
            { bc1 with
              chain := bc1.chain ++ [(Block.new bc1.chain.length ts
                bc1.pending_transactions latest.hash).mine_block n],
              pending_transactions := [rewardTxn miner bc1.mining_reward] } := by
          unfold EnergyBlockchain.mine_pending_transactions
          simp [hp, hl]
        rw [hstate] at ht
        simp only [ledgerTxns, List.mem_append, List.mem_singleton,
          List.flatMap_append, List.flatMap_cons, List.flatMap_nil,
          List.append_nil] at ht
        rcases ht with hteq | htc | htp
        · subst hteq; exact absurd rfl hk
        · exact ih t (by simp [ledgerTxns, List.mem_append, htc]) hk
        · have : t ∈ bc1.pending_transactions := htp
          exact ih t (by simp [ledgerTxns, List.mem_append, this]) hk

/-- Witness for C4's amended claim: the scenario's executed trade record,
inside the sealed chain, satisfies the product law. -/
theorem total_cost_of_trade_witness :
    scA.execute.1.total_cost =
      scA.execute.1.energy_kwh * scA.execute.1.price_per_kwh :=
  total_cost_of_trade bcSealed bcSealed_reachableC scA.execute.1
    (by
      have hc : bcSealed.chain =
          [(Block.new 0 "g" [] Hash.sentinel).mine_block 0,
           (Block.new 1 "t1" [scA.execute.1]
             ((Block.new 0 "g" [] Hash.sentinel).mine_block 0).hash).mine_block 0] := rfl
      simp [ledgerTxns, hc, Block.mine_block, Block.new])
    (by decide)

/-- C5: proof-of-work correctness of `mine_block`, for every hash function
`H`: whenever the loop returns (models the source loop terminating), the
block's stored hash is the digest of its current fields and its first `d`
characters are all `'0'`; for `d = 0` it returns immediately with the block
unchanged, and a freshly constructed block's nonce is `0`. -/
theorem mine_block_pow (H : Nat → String → List Txn → String → Nat → String)
    (d fuel : Nat) (b b' : SBlock)
    (hb : b.hash = b.calculate_hash H)
    (hres : SBlock.mine_block H d fuel b = some b') :
    b'.hash = b'.calculate_hash H ∧
    b'.hash.take d = powTarget d ∧
    (d = 0 → b' = b) ∧
    (∀ i ts txs ph, (SBlock.new H i ts txs ph).nonce = 0) := by
  induction fuel generalizing b with
  | zero =>
    unfold SBlock.mine_block at hres
    by_cases hcond : b.hash.take d = powTarget d
    · rw [if_pos hcond] at hres
      injection hres with e
      subst e
      exact ⟨hb, hcond, fun _ => rfl, fun i ts txs ph => rfl⟩
    · rw [if_neg hcond] at hres
      exact absurd hres (by simp)
  | succ fuel ih =>
    unfold SBlock.mine_block at hres
    by_cases hcond : b.hash.take d = powTarget d
    · rw [if_pos hcond] at hres
      injection hres with e
      subst e
      exact ⟨hb, hcond, fun _ => rfl, fun i ts txs ph => rfl⟩
    · rw [if_neg hcond] at hres
      have hb2 : (b.mineStep H).hash = (b.mineStep H).calculate_hash H := rfl
      have hrec := ih (b.mineStep H) hb2 hres
      refine ⟨hrec.1, hrec.2.1, ?_, hrec.2.2.2⟩
      intro hd0
      subst hd0
      exact absurd rfl hcond

/-- A concrete hash function for the C5 witness: constantly `"0"`. -/
def Hconst : Nat → String → List Txn → String → Nat → String :=
  fun _ _ _ _ _ => "0"

/-- A freshly constructed string-level block under `Hconst`. -/
def sbW : SBlock := SBlock.new Hconst 0 "t" [] "0"

/-- Witness for C5: mining `sbW` at difficulty 1 under `Hconst` succeeds
immediately and the theorem's conclusions hold there. -/
theorem mine_block_pow_witness :
    SBlock.mine_block Hconst 1 0 sbW = some sbW ∧
    (sbW.hash = sbW.calculate_hash Hconst ∧
     sbW.hash.take 1 = powTarget 1 ∧
     (1 = 0 → sbW = sbW) ∧
     (∀ i ts txs ph, (SBlock.new Hconst i ts txs ph).nonce = 0)) :=
  ⟨by decide, mine_block_pow Hconst 1 0 sbW sbW rfl (by decide)⟩
